import Mathlib

set_option autoImplicit false

namespace VTR

/-- A net of the atom netlist as seen by the analytical solver: the
ignored-for-placement flag and, for each pin, the placement node id of the
block that pin connects to (the composition of netlist.pin_block and
PartialPlacement.get_node_id_from_blk in the source). -/
structure Net where
  ignored : Bool
  pins : List Nat
deriving DecidableEq

/-- Placement data consumed by the solver: the number of moveable nodes, the
per-axis node positions, and the netlist. -/
structure PPlace (α : Type) where
  num_moveable_nodes : Nat
  node_loc_x : Nat → α
  node_loc_y : Nat → α
  nets : List Net

/-- Modelled from the spec: PartialPlacement.is_moveable_node is declared
outside src. Moveable nodes occupy ids 0 .. num_moveable_nodes - 1 and fixed
nodes the ids above them; the write-back loop of QPHybridSolver::solve and
the star-hub id scheme num_moveable_nodes + offset force this layout. -/
def is_moveable_node (M node_id : Nat) : Bool := node_id < M

/-- An Eigen triplet: row index, column index, value. -/
abbrev Trip (α : Type) := Nat × Nat × α

/-- One batch of emissions of the assembly loop: entries pushed onto the
triplet list and increments applied to the b_x and b_y vectors. -/
structure Contrib (α : Type) where
  trips : List (Trip α)
  bxs : List (Nat × α)
  bys : List (Nat × α)

def Contrib.append {α : Type} (c d : Contrib α) : Contrib α :=
  ⟨c.trips ++ d.trips, c.bxs ++ d.bxs, c.bys ++ d.bys⟩

def Contrib.empty {α : Type} : Contrib α := ⟨[], [], []⟩

/-- Entry (i, j) of the matrix assembled by setFromTriplets: the sum of the
values of all triplets at that coordinate (setFromTriplets sums
duplicates). -/
def matEntry {α : Type} [Field α] : List (Trip α) → Nat → Nat → α
  | [], _, _ => 0
  | (r, c, v) :: ts, i, j => (if r = i ∧ c = j then v else 0) + matEntry ts i j

/-- Entry i of a right-hand-side vector built by summing increments into a
zero-initialised vector. -/
def rhsEntry {α : Type} [Field α] : List (Nat × α) → Nat → α
  | [], _ => 0
  | (r, v) :: us, i => (if r = i then v else 0) + rhsEntry us i

/-- Star-net weight from the source: num_pins / (num_pins - 1), both
operands cast from int. -/
def starWeight {α : Type} [Field α] (num_pins : Nat) : α :=
  (num_pins : α) / ((num_pins - 1 : Nat) : α)

/-- Clique-net weight from the source: 1.0 / (num_pins - 1). -/
def cliqueWeight {α : Type} [Field α] (num_pins : Nat) : α :=
  1 / ((num_pins - 1 : Nat) : α)

/-- Contribution of one pin of a star net (the pin loop body of
populate_hybrid_matrix): the star node is always moveable; a moveable pin
node adds the four-entry stencil while a fixed pin node adds only to the
star diagonal and to the right-hand sides. -/
def starPinContrib {α : Type} [Field α] (M : Nat) (x y : Nat → α) (w : α)
    (star_node_id node_id : Nat) : Contrib α :=
  if is_moveable_node M node_id then
    ⟨[(star_node_id, star_node_id, w), (node_id, node_id, w),
      (star_node_id, node_id, -w), (node_id, star_node_id, -w)], [], []⟩
  else
    ⟨[(star_node_id, star_node_id, w)],
     [(star_node_id, w * x node_id)], [(star_node_id, w * y node_id)]⟩

/-- Contribution of one (ipin, jpin) pair of a clique net (the inner loop
body of populate_hybrid_matrix). The source first swaps the two node ids so
that the first one is moveable: a pair of fixed nodes is skipped, a moveable
pair adds the four-entry stencil, and a mixed pair adds to the moveable
diagonal and to the right-hand sides at the moveable index. -/
def cliquePairContrib {α : Type} [Field α] (M : Nat) (x y : Nat → α) (w : α)
    (first_node_id second_node_id : Nat) : Contrib α :=
  if is_moveable_node M first_node_id then
    if is_moveable_node M second_node_id then
      ⟨[(first_node_id, first_node_id, w), (second_node_id, second_node_id, w),
        (first_node_id, second_node_id, -w), (second_node_id, first_node_id, -w)], [], []⟩
    else
      ⟨[(first_node_id, first_node_id, w)],
       [(first_node_id, w * x second_node_id)], [(first_node_id, w * y second_node_id)]⟩
  else
    if is_moveable_node M second_node_id then
      ⟨[(second_node_id, second_node_id, w)],
       [(second_node_id, w * x first_node_id)], [(second_node_id, w * y first_node_id)]⟩
    else
      Contrib.empty

/-- All (ipin, jpin) index pairs with ipin < jpin, read off as the node ids
at those pins, in the order of the two nested loops of the clique branch. -/
def allPairs : List Nat → List (Nat × Nat)
  | [] => []
  | a :: rest => rest.map (fun b => (a, b)) ++ allPairs rest

def concatContribs {α : Type} (l : List (Contrib α)) : Contrib α :=
  l.foldr Contrib.append Contrib.empty

/-- Contribution of one non-ignored net: the star formulation with hub
star_node_id when the net has more than 3 pins, the clique formulation over
all pin pairs otherwise. -/
def netContrib {α : Type} [Field α] (M : Nat) (x y : Nat → α)
    (star_node_id : Nat) (net : Net) : Contrib α :=
  if net.pins.length > 3 then
    concatContribs (net.pins.map (starPinContrib M x y (starWeight net.pins.length) star_node_id))
  else
    concatContribs ((allPairs net.pins).map
      (fun pr => cliquePairContrib M x y (cliqueWeight net.pins.length) pr.1 pr.2))

/-- The first loop of populate_hybrid_matrix: count the non-ignored nets
with more than 3 pins; each will get one synthetic star node. -/
def numStarNodes (nets : List Net) : Nat :=
  (nets.filter (fun net => !net.ignored && decide (3 < net.pins.length))).length

/-- The main loop of populate_hybrid_matrix: concatenate the contribution of
every non-ignored net, star hubs taking ids num_moveable_nodes + offset in
program order; also returns the final star offset. -/
def assembleNets {α : Type} [Field α] (M : Nat) (x y : Nat → α) :
    List Net → Nat → Contrib α × Nat
  | [], star_node_offset => (Contrib.empty, star_node_offset)
  | net :: rest, star_node_offset =>
    if net.ignored then assembleNets M x y rest star_node_offset
    else if net.pins.length > 3 then
      (Contrib.append (netContrib M x y (M + star_node_offset) net)
        (assembleNets M x y rest (star_node_offset + 1)).1,
       (assembleNets M x y rest (star_node_offset + 1)).2)
    else
      (Contrib.append (netContrib M x y (M + star_node_offset) net)
        (assembleNets M x y rest star_node_offset).1,
       (assembleNets M x y rest star_node_offset).2)

/-- The assembled linear system: its dimension, the matrix A, and the two
right-hand-side vectors. -/
structure LinSys (α : Type) where
  dim : Nat
  A : Nat → Nat → α
  b_x : Nat → α
  b_y : Nat → α

/-- populate_hybrid_matrix: size the system at num_moveable + num_star,
run the assembly loop from star offset 0, sum the triplets into A and the
increments into the zero-initialised right-hand sides. -/
def populate_hybrid_matrix {α : Type} [Field α] (p : PPlace α) : LinSys α :=
  ⟨p.num_moveable_nodes + numStarNodes p.nets,
   fun i j => matEntry
     (assembleNets p.num_moveable_nodes p.node_loc_x p.node_loc_y p.nets 0).1.trips i j,
   fun i => rhsEntry
     (assembleNets p.num_moveable_nodes p.node_loc_x p.node_loc_y p.nets 0).1.bxs i,
   fun i => rhsEntry
     (assembleNets p.num_moveable_nodes p.node_loc_x p.node_loc_y p.nets 0).1.bys i⟩

/-- Pseudo-anchor coefficient computed by populate_update_hybrid_matrix:
0.01 * exp(iteration / 5), the iteration cast to double before the
division. -/
noncomputable def coeff_pseudo_anchor (iteration : Nat) : ℝ :=
  0.01 * Real.exp ((iteration : ℝ) / 5)

/-- Loop body of populate_update_hybrid_matrix at moveable node i:
Aii = Aii + w, b_x i = b_x i + w * x i, b_y i = b_y i + w * y i. -/
noncomputable def anchor_step (p : PPlace ℝ) (iteration : Nat)
    (t : LinSys ℝ) (i : Nat) : LinSys ℝ :=
  ⟨t.dim,
   fun r c => if r = i ∧ c = i then t.A r c + coeff_pseudo_anchor iteration else t.A r c,
   fun r => if r = i then t.b_x r + coeff_pseudo_anchor iteration * p.node_loc_x i else t.b_x r,
   fun r => if r = i then t.b_y r + coeff_pseudo_anchor iteration * p.node_loc_y i else t.b_y r⟩

/-- populate_update_hybrid_matrix: for i over the moveable nodes in order,
add the pseudo-anchor coefficient to the diagonal entry (i, i) and the
coefficient times the current position on each axis to that axis right-hand
side at i. -/
noncomputable def populate_update_hybrid_matrix (s : LinSys ℝ) (p : PPlace ℝ)
    (iteration : Nat) : LinSys ℝ :=
  (List.range p.num_moveable_nodes).foldl (anchor_step p iteration) s

/-- Outcomes of the Eigen conjugate-gradient collaborator and of the NaN
checks on the right-hand sides, as seen by QPHybridSolver::solve: whether
b_x or b_y contains a NaN, whether compute and the two per-axis solves
report Eigen::Success, and the solution vectors they produce. -/
structure CGOracle where
  b_x_hasNaN : Bool
  b_y_hasNaN : Bool
  compute_ok : Bool
  solve_x_ok : Bool
  solve_y_ok : Bool
  sol_x : Nat → ℝ
  sol_y : Nat → ℝ

/-- Failure modes of QPHybridSolver::solve, one per assertion, in program
order. -/
inductive SolveError
  | bXHasNaN
  | bYHasNaN
  | computeFailed
  | solveXFailed
  | solveYFailed
deriving DecidableEq

/-- QPHybridSolver::solve. At iteration 0 the stored system is rebuilt by
populate_hybrid_matrix; the call then copies the stored system and, at
iterations above 0, applies populate_update_hybrid_matrix to the copy only.
The assertions abort fatally in program order: the NaN checks on the
right-hand sides, then the three conjugate-gradient status checks. On
success the solution is written back to the moveable node positions only.
Returns the stored system after the call, the copied system handed to the
conjugate-gradient solver, and either the failure or the updated
placement. -/
noncomputable def QPHybridSolver_solve (cg : CGOracle) (stored : LinSys ℝ)
    (iteration : Nat) (p : PPlace ℝ) :
    LinSys ℝ × LinSys ℝ × Except SolveError (PPlace ℝ) :=
  let stored1 := if iteration = 0 then populate_hybrid_matrix p else stored
  let diff := if iteration ≠ 0 then populate_update_hybrid_matrix stored1 p iteration else stored1
  let result : Except SolveError (PPlace ℝ) :=
    if cg.b_x_hasNaN then Except.error SolveError.bXHasNaN
    else if cg.b_y_hasNaN then Except.error SolveError.bYHasNaN
    else if !cg.compute_ok then Except.error SolveError.computeFailed
    else if !cg.solve_x_ok then Except.error SolveError.solveXFailed
    else if !cg.solve_y_ok then Except.error SolveError.solveYFailed
    else
      Except.ok
        ⟨p.num_moveable_nodes,
         fun i => if i < p.num_moveable_nodes then cg.sol_x i else p.node_loc_x i,
         fun i => if i < p.num_moveable_nodes then cg.sol_y i else p.node_loc_y i,
         p.nets⟩
  (stored1, diff, result)

/-- QPHybridSolver::isSemiPosDef, with the Eigen self-adjoint eigensolver
treated as the external collaborator that hands back the real eigenvalue
list of the argument matrix: scan the eigenvalues and return false on any
one that is not strictly positive. -/
def isSemiPosDef : List ℚ → Bool
  | [] => true
  | e :: rest => if e ≤ 0 then false else isSemiPosDef rest

/-- Costs tracked by the placer that feed the consistency check. A double
the source sets to quiet_NaN is modelled as none; a comparison against NaN
is false. -/
structure PlacerCosts where
  bb_cost : ℚ
  bb_cost_norm : ℚ
  timing_cost : Option ℚ
  timing_cost_norm : Option ℚ
deriving DecidableEq

/-- Cost-initialisation fragment of the Placer constructor: the bounding-box
cost comes from a NORMAL full recomputation with its reciprocal as the
normalization factor; when the algorithm is timing driven the timing cost
comes from timing initialisation with its reciprocal as factor, otherwise
both timing fields are set to quiet NaN (modelled none). -/
def placer_init_costs (timing_driven : Bool)
    (bb_cost_computed timing_cost_computed : ℚ) : PlacerCosts :=
  if timing_driven then
    ⟨bb_cost_computed, 1 / bb_cost_computed,
     some timing_cost_computed, some (1 / timing_cost_computed)⟩
  else
    ⟨bb_cost_computed, 1 / bb_cost_computed, none, none⟩

/-- Bounding-box mismatch test of Placer::check_placement_costs_: the CHECK
recomputation differs from the tracked cost by more than the tracked cost
times the relative tolerance. -/
def bb_mismatch (tol : ℚ) (costs : PlacerCosts) (bb_cost_check : ℚ) : Bool :=
  decide (|bb_cost_check - costs.bb_cost| > costs.bb_cost * tol)

/-- Timing mismatch test of Placer::check_placement_costs_; a comparison
against a NaN timing cost is false. -/
def timing_mismatch (tol : ℚ) (costs : PlacerCosts) (timing_cost_check : ℚ) : Bool :=
  match costs.timing_cost with
  | some tc => decide (|timing_cost_check - tc| > tc * tol)
  | none => false

/-- Placer::check_placement_costs_: compare the CHECK-mode bounding-box
recomputation against the tracked cost and, when timing driven, the
from-scratch timing recomputation against the tracked timing cost; each
mismatch beyond the relative tolerance adds one error. -/
def check_placement_costs (timing_driven : Bool) (tol : ℚ) (costs : PlacerCosts)
    (bb_cost_check timing_cost_check : ℚ) : Nat :=
  (if bb_mismatch tol costs bb_cost_check then 1 else 0) +
    (if timing_driven && timing_mismatch tol costs timing_cost_check then 1 else 0)

/-- Outcome of Placer::check_place_. -/
inductive CheckResult
  | success
  | fatal (num_errors : Nat)
deriving DecidableEq

/-- Placer::check_place_: accumulate errors from verify_placement (an
external collaborator), from the cost checks, and, when NoC is enabled, from
the NoC cost check and the CDG cycle check; log success when the count is
zero and raise a fatal error carrying the count otherwise. -/
def check_place (verify_placement_errors : Nat) (noc : Bool)
    (noc_cost_errors : Nat) (noc_routing_has_cycle : Bool)
    (timing_driven : Bool) (tol : ℚ) (costs : PlacerCosts)
    (bb_cost_check timing_cost_check : ℚ) : CheckResult :=
  let error := verify_placement_errors
    + check_placement_costs timing_driven tol costs bb_cost_check timing_cost_check
    + (if noc then noc_cost_errors + (if noc_routing_has_cycle then 1 else 0) else 0)
  if error = 0 then CheckResult.success else CheckResult.fatal error

/-- A concrete placement over the rationals: two moveable nodes joined by one
two-pin net, all positions at the origin. -/
def exPlacement2 : PPlace ℚ := ⟨2, fun _ => 0, fun _ => 0, [⟨false, [0, 1]⟩]⟩

/-- A concrete placement over the rationals: three moveable nodes joined by
one three-pin net, all positions at the origin. -/
def exPlacement3 : PPlace ℚ := ⟨3, fun _ => 0, fun _ => 0, [⟨false, [0, 1, 2]⟩]⟩

/-- A concrete real-valued placement with one moveable node and no nets. -/
noncomputable def exPlacementR : PPlace ℝ := ⟨1, fun _ => 0, fun _ => 0, []⟩

/-- A concrete real-valued linear system of dimension 1, all zero. -/
noncomputable def exLinSysR : LinSys ℝ := ⟨1, fun _ _ => 0, fun _ => 0, fun _ => 0⟩

/-- A conjugate-gradient oracle reporting success everywhere, solutions all
zero. -/
noncomputable def exOracleOk : CGOracle :=
  ⟨false, false, true, true, true, fun _ => 0, fun _ => 0⟩

/-- A conjugate-gradient oracle whose compute step fails. -/
noncomputable def exOracleFail : CGOracle :=
  ⟨false, false, false, true, true, fun _ => 0, fun _ => 0⟩

/-- Spec-side description of connectivity in the star model: one connection
between the hub and each moveable pin node; its indicator at the unordered
index pair (i, j). -/
def starPinMult (M star_node_id node_id i j : Nat) : Nat :=
  if node_id < M ∧ ((i = star_node_id ∧ j = node_id) ∨ (i = node_id ∧ j = star_node_id))
  then 1 else 0

/-- Spec-side description of connectivity in the clique model: one
connection for each pin pair whose two nodes are both moveable; its
indicator at the unordered index pair (i, j). -/
def cliquePairMult (M f s i j : Nat) : Nat :=
  if f < M ∧ s < M ∧ ((i = f ∧ j = s) ∨ (i = s ∧ j = f)) then 1 else 0

/-- Spec-side connection multiplicity of one net model between unknowns i
and j: hub-to-moveable-pin connections in the star model, both-moveable pin
pairs in the clique model. -/
def netPairMult (M star_node_id : Nat) (net : Net) (i j : Nat) : Nat :=
  if net.pins.length > 3 then
    (net.pins.map (fun nid => starPinMult M star_node_id nid i j)).sum
  else
    ((allPairs net.pins).map (fun pr => cliquePairMult M pr.1 pr.2 i j)).sum

/-- Spec-side total connection weight between unknowns i and j: over the
non-ignored nets (star hubs allocated in program order), the net weight
times the multiplicity of the connection in that net model. -/
def connWeight {α : Type} [Field α] (M : Nat) :
    List Net → Nat → Nat → Nat → α
  | [], _, _, _ => 0
  | net :: rest, offset, i, j =>
    if net.ignored then connWeight M rest offset i j
    else if net.pins.length > 3 then
      starWeight net.pins.length * (netPairMult M (M + offset) net i j : α)
        + connWeight M rest (offset + 1) i j
    else
      cliqueWeight net.pins.length * (netPairMult M (M + offset) net i j : α)
        + connWeight M rest offset i j

/-- Spec-side fixed-node contribution of one net model to a right-hand-side
vector at index i: each fixed pin node adds the net weight times its
position on that axis at the connected unknown, which is the star hub in the
star model and the moveable partner of the pin pair in the clique model. -/
def netFixedRhs {α : Type} [Field α] (M : Nat) (pos : Nat → α)
    (star_node_id : Nat) (net : Net) (i : Nat) : α :=
  if net.pins.length > 3 then
    (net.pins.map (fun nid =>
      if ¬ nid < M ∧ i = star_node_id then starWeight net.pins.length * pos nid else 0)).sum
  else
    ((allPairs net.pins).map (fun pr =>
      if pr.1 < M ∧ ¬ pr.2 < M ∧ i = pr.1 then cliqueWeight net.pins.length * pos pr.2
      else if ¬ pr.1 < M ∧ pr.2 < M ∧ i = pr.2 then cliqueWeight net.pins.length * pos pr.1
      else 0)).sum

/-- Spec-side total fixed-node contribution to a right-hand-side vector at
index i over the non-ignored nets, star hubs allocated in program order. -/
def fixedRhs {α : Type} [Field α] (M : Nat) (pos : Nat → α) :
    List Net → Nat → Nat → α
  | [], _, _ => 0
  | net :: rest, offset, i =>
    if net.ignored then fixedRhs M pos rest offset i
    else if net.pins.length > 3 then
      netFixedRhs M pos (M + offset) net i + fixedRhs M pos rest (offset + 1) i
    else
      netFixedRhs M pos (M + offset) net i + fixedRhs M pos rest offset i

theorem matEntry_append {α : Type} [Field α] (ts us : List (Trip α)) (i j : Nat) :
    matEntry (ts ++ us) i j = matEntry ts i j + matEntry us i j := by
  induction ts with
  | nil => simp [matEntry]
  | cons t ts ih =>
    obtain ⟨r, c, v⟩ := t
    simp [matEntry, ih, add_assoc]

theorem rhsEntry_append {α : Type} [Field α] (us vs : List (Nat × α)) (i : Nat) :
    rhsEntry (us ++ vs) i = rhsEntry us i + rhsEntry vs i := by
  induction us with
  | nil => simp [rhsEntry]
  | cons u us ih =>
    obtain ⟨r, v⟩ := u
    simp [rhsEntry, ih, add_assoc]

theorem trips_concatContribs {α : Type} (l : List (Contrib α)) :
    (concatContribs l).trips = (l.map Contrib.trips).flatten := by
  induction l with
  | nil => simp [concatContribs, Contrib.empty]
  | cons c l ih => simp [concatContribs, Contrib.append, List.foldr] at ih ⊢; rw [ih]

theorem bxs_concatContribs {α : Type} (l : List (Contrib α)) :
    (concatContribs l).bxs = (l.map Contrib.bxs).flatten := by
  induction l with
  | nil => simp [concatContribs, Contrib.empty]
  | cons c l ih => simp [concatContribs, Contrib.append, List.foldr] at ih ⊢; rw [ih]

theorem bys_concatContribs {α : Type} (l : List (Contrib α)) :
    (concatContribs l).bys = (l.map Contrib.bys).flatten := by
  induction l with
  | nil => simp [concatContribs, Contrib.empty]
  | cons c l ih => simp [concatContribs, Contrib.append, List.foldr] at ih ⊢; rw [ih]

theorem matEntry_flatten {α : Type} [Field α] (ls : List (List (Trip α))) (i j : Nat) :
    matEntry ls.flatten i j = (ls.map (fun ts => matEntry ts i j)).sum := by
  induction ls with
  | nil => simp [matEntry]
  | cons ts ls ih => simp [matEntry_append, ih]

theorem rhsEntry_flatten {α : Type} [Field α] (ls : List (List (Nat × α))) (i : Nat) :
    rhsEntry ls.flatten i = (ls.map (fun us => rhsEntry us i)).sum := by
  induction ls with
  | nil => simp [rhsEntry]
  | cons us ls ih => simp [rhsEntry_append, ih]

theorem starPinMult_symm (M h nid i j : Nat) :
    starPinMult M h nid i j = starPinMult M h nid j i := by
  unfold starPinMult
  exact if_congr (by tauto) rfl rfl

theorem cliquePairMult_symm (M f s i j : Nat) :
    cliquePairMult M f s i j = cliquePairMult M f s j i := by
  unfold cliquePairMult
  exact if_congr (by tauto) rfl rfl

theorem netPairMult_symm (M h : Nat) (net : Net) (i j : Nat) :
    netPairMult M h net i j = netPairMult M h net j i := by
  unfold netPairMult
  split_ifs with hbig
  · exact congrArg List.sum
      (List.map_congr_left (fun nid _ => starPinMult_symm M h nid i j))
  · exact congrArg List.sum
      (List.map_congr_left (fun pr _ => cliquePairMult_symm M pr.1 pr.2 i j))

theorem connWeight_symm {α : Type} [Field α] (M : Nat) (nets : List Net)
    (offset i j : Nat) :
    connWeight (α := α) M nets offset i j = connWeight M nets offset j i := by
  induction nets generalizing offset with
  | nil => rfl
  | cons net rest ih =>
    unfold connWeight
    split_ifs with hig hbig
    · exact ih offset
    · rw [netPairMult_symm, ih (offset + 1)]
    · rw [netPairMult_symm, ih offset]

theorem matEntry_starPinContrib_ne {α : Type} [Field α] (M : Nat)
    (x y : Nat → α) (w : α) (h nid i j : Nat) (hij : i ≠ j) :
    matEntry (starPinContrib M x y w h nid).trips i j
      = -(w * (starPinMult M h nid i j : α)) := by
  unfold starPinContrib starPinMult is_moveable_node
  simp only [decide_eq_true_eq]
  split_ifs with hm <;> simp only [matEntry] <;> split_ifs <;>
    first | (exfalso; omega) | (push_cast; try ring) | ring

theorem matEntry_cliquePairContrib_ne {α : Type} [Field α] (M : Nat)
    (x y : Nat → α) (w : α) (f s i j : Nat) (hij : i ≠ j) :
    matEntry (cliquePairContrib M x y w f s).trips i j
      = -(w * (cliquePairMult M f s i j : α)) := by
  unfold cliquePairContrib cliquePairMult is_moveable_node Contrib.empty
  simp only [decide_eq_true_eq]
  split_ifs with hm hm2 hm3 <;> simp only [matEntry] <;> (try split_ifs) <;>
    first | (exfalso; omega) | (push_cast; try ring) | ring

theorem concatContribs_cons {α : Type} (c : Contrib α) (cs : List (Contrib α)) :
    concatContribs (c :: cs) = Contrib.append c (concatContribs cs) := rfl

theorem matEntry_concat_map {α : Type} [Field α] {β : Type} (f : β → Contrib α)
    (l : List β) (i j : Nat) :
    matEntry (concatContribs (l.map f)).trips i j
      = (l.map (fun b => matEntry (f b).trips i j)).sum := by
  induction l with
  | nil => simp [concatContribs, Contrib.empty, matEntry]
  | cons a l ih =>
    simp only [List.map_cons, concatContribs_cons, Contrib.append, matEntry_append,
      List.sum_cons]
    rw [← ih]

theorem rhsEntry_concat_map_bxs {α : Type} [Field α] {β : Type} (f : β → Contrib α)
    (l : List β) (i : Nat) :
    rhsEntry (concatContribs (l.map f)).bxs i
      = (l.map (fun b => rhsEntry (f b).bxs i)).sum := by
  induction l with
  | nil => simp [concatContribs, Contrib.empty, rhsEntry]
  | cons a l ih =>
    simp only [List.map_cons, concatContribs_cons, Contrib.append, rhsEntry_append,
      List.sum_cons]
    rw [← ih]

theorem rhsEntry_concat_map_bys {α : Type} [Field α] {β : Type} (f : β → Contrib α)
    (l : List β) (i : Nat) :
    rhsEntry (concatContribs (l.map f)).bys i
      = (l.map (fun b => rhsEntry (f b).bys i)).sum := by
  induction l with
  | nil => simp [concatContribs, Contrib.empty, rhsEntry]
  | cons a l ih =>
    simp only [List.map_cons, concatContribs_cons, Contrib.append, rhsEntry_append,
      List.sum_cons]
    rw [← ih]

theorem sum_map_neg_mul_cast {α : Type} [Field α] {β : Type} (w : α) (l : List β)
    (g : β → Nat) :
    (l.map (fun b => -(w * (g b : α)))).sum = -(w * (((l.map g).sum : Nat) : α)) := by
  induction l with
  | nil => simp
  | cons a l ih =>
    simp only [List.map_cons, List.sum_cons, ih]
    push_cast
    ring

theorem matEntry_netContrib_ne {α : Type} [Field α] (M : Nat) (x y : Nat → α)
    (h : Nat) (net : Net) (i j : Nat) (hij : i ≠ j) :
    matEntry (netContrib M x y h net).trips i j
      = -((if net.pins.length > 3 then starWeight net.pins.length
           else cliqueWeight net.pins.length) * (netPairMult M h net i j : α)) := by
  unfold netContrib netPairMult
  split_ifs with hbig
  · rw [matEntry_concat_map]
    rw [List.map_congr_left
      (fun nid _ => matEntry_starPinContrib_ne M x y (starWeight net.pins.length) h nid i j hij)]
    rw [sum_map_neg_mul_cast]
  · rw [matEntry_concat_map]
    rw [List.map_congr_left
      (fun pr _ => matEntry_cliquePairContrib_ne M x y (cliqueWeight net.pins.length) pr.1 pr.2 i j hij)]
    rw [sum_map_neg_mul_cast]

theorem matEntry_assembleNets_ne {α : Type} [Field α] (M : Nat) (x y : Nat → α)
    (nets : List Net) (offset i j : Nat) (hij : i ≠ j) :
    matEntry (assembleNets M x y nets offset).1.trips i j
      = -(connWeight M nets offset i j) := by
  induction nets generalizing offset with
  | nil => simp [assembleNets, connWeight, Contrib.empty, matEntry]
  | cons net rest ih =>
    unfold assembleNets connWeight
    split_ifs with hig hbig
    · exact ih offset
    · simp only [Contrib.append, matEntry_append]
      rw [matEntry_netContrib_ne M x y (M + offset) net i j hij, ih (offset + 1),
        if_pos hbig]
      ring
    · simp only [Contrib.append, matEntry_append]
      rw [matEntry_netContrib_ne M x y (M + offset) net i j hij, ih offset,
        if_neg hbig]
      ring

theorem rhsEntry_starPinContrib_bxs {α : Type} [Field α] (M : Nat) (x y : Nat → α)
    (w : α) (h nid i : Nat) :
    rhsEntry (starPinContrib M x y w h nid).bxs i
      = (if ¬ nid < M ∧ i = h then w * x nid else 0) := by
  unfold starPinContrib is_moveable_node
  simp only [decide_eq_true_eq]
  split_ifs <;> simp only [rhsEntry] <;> (try split_ifs) <;>
    first | (exfalso; omega) | ring | rfl

theorem rhsEntry_starPinContrib_bys {α : Type} [Field α] (M : Nat) (x y : Nat → α)
    (w : α) (h nid i : Nat) :
    rhsEntry (starPinContrib M x y w h nid).bys i
      = (if ¬ nid < M ∧ i = h then w * y nid else 0) := by
  unfold starPinContrib is_moveable_node
  simp only [decide_eq_true_eq]
  split_ifs <;> simp only [rhsEntry] <;> (try split_ifs) <;>
    first | (exfalso; omega) | ring | rfl

theorem rhsEntry_cliquePairContrib_bxs {α : Type} [Field α] (M : Nat) (x y : Nat → α)
    (w : α) (f s i : Nat) :
    rhsEntry (cliquePairContrib M x y w f s).bxs i
      = (if f < M ∧ ¬ s < M ∧ i = f then w * x s
         else if ¬ f < M ∧ s < M ∧ i = s then w * x f else 0) := by
  unfold cliquePairContrib is_moveable_node Contrib.empty
  simp only [decide_eq_true_eq]
  split_ifs <;> simp only [rhsEntry] <;> (try split_ifs) <;>
    first | (exfalso; omega) | ring | rfl

theorem rhsEntry_cliquePairContrib_bys {α : Type} [Field α] (M : Nat) (x y : Nat → α)
    (w : α) (f s i : Nat) :
    rhsEntry (cliquePairContrib M x y w f s).bys i
      = (if f < M ∧ ¬ s < M ∧ i = f then w * y s
         else if ¬ f < M ∧ s < M ∧ i = s then w * y f else 0) := by
  unfold cliquePairContrib is_moveable_node Contrib.empty
  simp only [decide_eq_true_eq]
  split_ifs <;> simp only [rhsEntry] <;> (try split_ifs) <;>
    first | (exfalso; omega) | ring | rfl

theorem rhsEntry_netContrib_bxs {α : Type} [Field α] (M : Nat) (x y : Nat → α)
    (h : Nat) (net : Net) (i : Nat) :
    rhsEntry (netContrib M x y h net).bxs i = netFixedRhs M x h net i := by
  unfold netContrib netFixedRhs
  split_ifs with hbig
  · rw [rhsEntry_concat_map_bxs]
    exact congrArg List.sum (List.map_congr_left
      (fun nid _ => rhsEntry_starPinContrib_bxs M x y (starWeight net.pins.length) h nid i))
  · rw [rhsEntry_concat_map_bxs]
    exact congrArg List.sum (List.map_congr_left
      (fun pr _ => rhsEntry_cliquePairContrib_bxs M x y (cliqueWeight net.pins.length) pr.1 pr.2 i))

theorem rhsEntry_netContrib_bys {α : Type} [Field α] (M : Nat) (x y : Nat → α)
    (h : Nat) (net : Net) (i : Nat) :
    rhsEntry (netContrib M x y h net).bys i = netFixedRhs M y h net i := by
  unfold netContrib netFixedRhs
  split_ifs with hbig
  · rw [rhsEntry_concat_map_bys]
    exact congrArg List.sum (List.map_congr_left
      (fun nid _ => rhsEntry_starPinContrib_bys M x y (starWeight net.pins.length) h nid i))
  · rw [rhsEntry_concat_map_bys]
    exact congrArg List.sum (List.map_congr_left
      (fun pr _ => rhsEntry_cliquePairContrib_bys M x y (cliqueWeight net.pins.length) pr.1 pr.2 i))

theorem rhsEntry_assembleNets_bxs {α : Type} [Field α] (M : Nat) (x y : Nat → α)
    (nets : List Net) (offset i : Nat) :
    rhsEntry (assembleNets M x y nets offset).1.bxs i = fixedRhs M x nets offset i := by
  induction nets generalizing offset with
  | nil => simp [assembleNets, fixedRhs, Contrib.empty, rhsEntry]
  | cons net rest ih =>
    unfold assembleNets fixedRhs
    split_ifs with hig hbig
    · exact ih offset
    · simp only [Contrib.append, rhsEntry_append]
      rw [rhsEntry_netContrib_bxs, ih (offset + 1)]
    · simp only [Contrib.append, rhsEntry_append]
      rw [rhsEntry_netContrib_bxs, ih offset]

theorem rhsEntry_assembleNets_bys {α : Type} [Field α] (M : Nat) (x y : Nat → α)
    (nets : List Net) (offset i : Nat) :
    rhsEntry (assembleNets M x y nets offset).1.bys i = fixedRhs M y nets offset i := by
  induction nets generalizing offset with
  | nil => simp [assembleNets, fixedRhs, Contrib.empty, rhsEntry]
  | cons net rest ih =>
    unfold assembleNets fixedRhs
    split_ifs with hig hbig
    · exact ih offset
    · simp only [Contrib.append, rhsEntry_append]
      rw [rhsEntry_netContrib_bys, ih (offset + 1)]
    · simp only [Contrib.append, rhsEntry_append]
      rw [rhsEntry_netContrib_bys, ih offset]

theorem numStarNodes_cons (net : Net) (rest : List Net) :
    numStarNodes (net :: rest)
      = (if !net.ignored && decide (3 < net.pins.length) then 1 else 0)
        + numStarNodes rest := by
  unfold numStarNodes
  rw [List.filter_cons]
  split_ifs with hc
  · simp [hc, Nat.add_comm]
  · simp [hc]

theorem assembleNets_final_offset {α : Type} [Field α] (M : Nat) (x y : Nat → α)
    (nets : List Net) (offset : Nat) :
    (assembleNets M x y nets offset).2 = offset + numStarNodes nets := by
  induction nets generalizing offset with
  | nil => simp [assembleNets, numStarNodes]
  | cons net rest ih =>
    rw [numStarNodes_cons]
    unfold assembleNets
    by_cases hig : net.ignored = true
    · rw [if_pos hig, ih offset]
      simp [hig]
    · rw [if_neg hig]
      by_cases hbig : net.pins.length > 3
      · rw [if_pos hbig]
        dsimp only
        rw [ih (offset + 1)]
        simp [hig, hbig]
        omega
      · rw [if_neg hbig]
        dsimp only
        rw [ih offset]
        simp [hig, hbig]

theorem mem_trips_concat_map {α : Type} [Field α] {β : Type} (f : β → Contrib α)
    (l : List β) (t : Trip α) :
    t ∈ (concatContribs (l.map f)).trips ↔ ∃ b ∈ l, t ∈ (f b).trips := by
  induction l with
  | nil => simp [concatContribs, Contrib.empty]
  | cons a l ih => simp [concatContribs_cons, Contrib.append, List.mem_append, ih]

theorem trips_starPinContrib_bound {α : Type} [Field α] (M : Nat) (x y : Nat → α)
    (w : α) (h nid : Nat) :
    ∀ t ∈ (starPinContrib M x y w h nid).trips,
      (t.1 < M ∨ t.1 = h) ∧ (t.2.1 < M ∨ t.2.1 = h) := by
  unfold starPinContrib is_moveable_node
  simp only [decide_eq_true_eq]
  split_ifs with hm <;> intro t ht <;>
    simp only [List.mem_cons, List.not_mem_nil, or_false] at ht
  · rcases ht with rfl | rfl | rfl | rfl <;> simp [hm]
  · rcases ht with rfl
    simp

theorem trips_cliquePairContrib_bound {α : Type} [Field α] (M : Nat) (x y : Nat → α)
    (w : α) (f s : Nat) :
    ∀ t ∈ (cliquePairContrib M x y w f s).trips, t.1 < M ∧ t.2.1 < M := by
  unfold cliquePairContrib is_moveable_node Contrib.empty
  simp only [decide_eq_true_eq]
  split_ifs with hm hm2 hm3 <;> intro t ht <;>
    simp only [List.mem_cons, List.not_mem_nil, or_false] at ht
  · rcases ht with rfl | rfl | rfl | rfl <;> simp [hm, hm2]
  · rcases ht with rfl
    simp [hm]
  · rcases ht with rfl
    simp [hm3]

theorem trips_netContrib_small_bound {α : Type} [Field α] (M : Nat) (x y : Nat → α)
    (h : Nat) (net : Net) (hsmall : ¬ net.pins.length > 3) :
    ∀ t ∈ (netContrib M x y h net).trips, t.1 < M ∧ t.2.1 < M := by
  unfold netContrib
  rw [if_neg hsmall]
  intro t ht
  rw [mem_trips_concat_map] at ht
  obtain ⟨pr, _, hpr⟩ := ht
  exact trips_cliquePairContrib_bound M x y _ pr.1 pr.2 t hpr

theorem trips_netContrib_big_bound {α : Type} [Field α] (M : Nat) (x y : Nat → α)
    (h : Nat) (net : Net) (hbig : net.pins.length > 3) :
    ∀ t ∈ (netContrib M x y h net).trips,
      (t.1 < M ∨ t.1 = h) ∧ (t.2.1 < M ∨ t.2.1 = h) := by
  unfold netContrib
  rw [if_pos hbig]
  intro t ht
  rw [mem_trips_concat_map] at ht
  obtain ⟨nid, _, hnid⟩ := ht
  exact trips_starPinContrib_bound M x y _ h nid t hnid

theorem trips_assembleNets_bound {α : Type} [Field α] (M : Nat) (x y : Nat → α)
    (nets : List Net) (offset : Nat) :
    ∀ t ∈ (assembleNets M x y nets offset).1.trips,
      t.1 < M + offset + numStarNodes nets ∧ t.2.1 < M + offset + numStarNodes nets := by
  induction nets generalizing offset with
  | nil => intro t ht; simp [assembleNets, Contrib.empty] at ht
  | cons net rest ih =>
    unfold assembleNets
    by_cases hig : net.ignored = true
    · rw [if_pos hig]
      intro t ht
      have hs : numStarNodes (net :: rest) = numStarNodes rest := by
        rw [numStarNodes_cons]; simp [hig]
      rw [hs]
      exact ih offset t ht
    · rw [if_neg hig]
      by_cases hbig : net.pins.length > 3
      · rw [if_pos hbig]
        dsimp only
        intro t ht
        have hs : numStarNodes (net :: rest) = 1 + numStarNodes rest := by
          rw [numStarNodes_cons]; simp [hig, hbig]
        rw [hs]
        simp only [Contrib.append, List.mem_append] at ht
        rcases ht with hnet | hrest
        · have hb := trips_netContrib_big_bound M x y (M + offset) net hbig t hnet
          omega
        · have hb := ih (offset + 1) t hrest
          omega
      · rw [if_neg hbig]
        dsimp only
        intro t ht
        have hs : numStarNodes (net :: rest) = numStarNodes rest := by
          rw [numStarNodes_cons]; simp [hbig]
        rw [hs]
        simp only [Contrib.append, List.mem_append] at ht
        rcases ht with hnet | hrest
        · have hb := trips_netContrib_small_bound M x y (M + offset) net hbig t hnet
          omega
        · exact ih offset t hrest

theorem matEntry_eq_zero_of_out {α : Type} [Field α] (ts : List (Trip α))
    (B i j : Nat) (hb : ∀ t ∈ ts, t.1 < B ∧ t.2.1 < B) (hout : B ≤ i ∨ B ≤ j) :
    matEntry ts i j = 0 := by
  induction ts with
  | nil => rfl
  | cons t ts ih =>
    obtain ⟨r, c, v⟩ := t
    have h1 : r < B ∧ c < B := hb (r, c, v) (List.mem_cons_self _ _)
    simp only [matEntry]
    rw [ih (fun u hu => hb u (List.mem_cons_of_mem _ hu))]
    have hnot : ¬(r = i ∧ c = j) := by omega
    rw [if_neg hnot]
    ring

theorem matEntry_assembleNets_symm {α : Type} [Field α] (M : Nat) (x y : Nat → α)
    (nets : List Net) (offset i j : Nat) :
    matEntry (assembleNets M x y nets offset).1.trips i j
      = matEntry (assembleNets M x y nets offset).1.trips j i := by
  by_cases hij : i = j
  · rw [hij]
  · rw [matEntry_assembleNets_ne M x y nets offset i j hij,
      matEntry_assembleNets_ne M x y nets offset j i (fun hh => hij hh.symm),
      connWeight_symm]

theorem anchor_fold_A (p : PPlace ℝ) (k : Nat) (s : LinSys ℝ) (n i j : Nat) :
    ((List.range n).foldl (anchor_step p k) s).A i j
      = s.A i j + (if i = j ∧ i < n then coeff_pseudo_anchor k else 0) := by
  induction n generalizing s with
  | zero => simp
  | succ n ih =>
    rw [List.range_succ, List.foldl_append, List.foldl_cons, List.foldl_nil]
    show (anchor_step p k ((List.range n).foldl (anchor_step p k) s) n).A i j = _
    simp only [anchor_step]
    by_cases hn : i = n ∧ j = n
    · rw [if_pos hn, ih]
      have h1 : ¬(i = j ∧ i < n) := by omega
      have h2 : i = j ∧ i < n + 1 := by omega
      rw [if_neg h1, if_pos h2]
      ring
    · rw [if_neg hn, ih]
      have he : (i = j ∧ i < n) ↔ (i = j ∧ i < n + 1) := by omega
      rw [if_congr he rfl rfl]

theorem anchor_fold_bx (p : PPlace ℝ) (k : Nat) (s : LinSys ℝ) (n i : Nat) :
    ((List.range n).foldl (anchor_step p k) s).b_x i
      = s.b_x i + (if i < n then coeff_pseudo_anchor k * p.node_loc_x i else 0) := by
  induction n generalizing s with
  | zero => simp
  | succ n ih =>
    rw [List.range_succ, List.foldl_append, List.foldl_cons, List.foldl_nil]
    show (anchor_step p k ((List.range n).foldl (anchor_step p k) s) n).b_x i = _
    simp only [anchor_step]
    by_cases hn : i = n
    · rw [if_pos hn, ih]
      have h1 : ¬ i < n := by omega
      have h2 : i < n + 1 := by omega
      rw [if_neg h1, if_pos h2, hn]
      ring
    · rw [if_neg hn, ih]
      have he : i < n ↔ i < n + 1 := by omega
      rw [if_congr he rfl rfl]

theorem anchor_fold_by (p : PPlace ℝ) (k : Nat) (s : LinSys ℝ) (n i : Nat) :
    ((List.range n).foldl (anchor_step p k) s).b_y i
      = s.b_y i + (if i < n then coeff_pseudo_anchor k * p.node_loc_y i else 0) := by
  induction n generalizing s with
  | zero => simp
  | succ n ih =>
    rw [List.range_succ, List.foldl_append, List.foldl_cons, List.foldl_nil]
    show (anchor_step p k ((List.range n).foldl (anchor_step p k) s) n).b_y i = _
    simp only [anchor_step]
    by_cases hn : i = n
    · rw [if_pos hn, ih]
      have h1 : ¬ i < n := by omega
      have h2 : i < n + 1 := by omega
      rw [if_neg h1, if_pos h2, hn]
      ring
    · rw [if_neg hn, ih]
      have he : i < n ↔ i < n + 1 := by omega
      rw [if_congr he rfl rfl]

/-- C7: the pseudo-anchor weight 0.01 * exp(k / 5) computed by
populate_update_hybrid_matrix is strictly increasing in the iteration
index: whenever k1 < k2, the weight at k1 is strictly below the weight at
k2. -/
theorem coeff_pseudo_anchor_strictMono (k1 k2 : Nat) (h : k1 < k2) :
    coeff_pseudo_anchor k1 < coeff_pseudo_anchor k2 := by
  unfold coeff_pseudo_anchor
  have hc : (k1 : ℝ) < (k2 : ℝ) := by exact_mod_cast h
  have h5 : (k1 : ℝ) / 5 < (k2 : ℝ) / 5 := by linarith
  exact mul_lt_mul_of_pos_left (Real.exp_lt_exp.mpr h5) (by norm_num)

theorem coeff_pseudo_anchor_strictMono_witness :
    0 < 3 ∧ coeff_pseudo_anchor 0 < coeff_pseudo_anchor 3 :=
  ⟨by decide, coeff_pseudo_anchor_strictMono 0 3 (by decide)⟩

/-- C3: whenever one of the NaN checks on the right-hand sides trips, or
the conjugate-gradient compute step or either per-axis solve does not
report success, QPHybridSolver::solve ends in the corresponding fatal
assertion and returns no placement, so no (possibly non-finite) positions
are written back. -/
theorem solve_failure_aborts (cg : CGOracle) (stored : LinSys ℝ)
    (iteration : Nat) (p : PPlace ℝ)
    (h : cg.b_x_hasNaN = true ∨ cg.b_y_hasNaN = true ∨ cg.compute_ok = false
       ∨ cg.solve_x_ok = false ∨ cg.solve_y_ok = false) :
    ∃ e : SolveError,
      (QPHybridSolver_solve cg stored iteration p).2.2 = Except.error e := by
  unfold QPHybridSolver_solve
  cases hbx : cg.b_x_hasNaN <;> cases hby : cg.b_y_hasNaN <;>
    cases hc : cg.compute_ok <;> cases hsx : cg.solve_x_ok <;>
    cases hsy : cg.solve_y_ok <;>
    simp only [hbx, hby, hc, hsx, hsy] at h ⊢ <;>
    simp_all <;> exact ⟨_, rfl⟩

theorem solve_failure_aborts_witness :
    exOracleFail.compute_ok = false
    ∧ ∃ e : SolveError,
        (QPHybridSolver_solve exOracleFail exLinSysR 1 exPlacementR).2.2
          = Except.error e :=
  ⟨rfl, solve_failure_aborts exOracleFail exLinSysR 1 exPlacementR
    (Or.inr (Or.inr (Or.inl rfl)))⟩

/-- C8: on a successful QPHybridSolver::solve, the returned placement takes
the solver solution exactly at the moveable node indices 0 ..
num_moveable_nodes - 1 on both axes; every index at or above
num_moveable_nodes, which covers the fixed nodes and is where any synthetic
star-node solution entries would land, keeps its previous position, so star
solutions are discarded and fixed nodes are untouched. -/
theorem solve_writeback_frame (cg : CGOracle) (stored : LinSys ℝ)
    (iteration : Nat) (p : PPlace ℝ)
    (hbx : cg.b_x_hasNaN = false) (hby : cg.b_y_hasNaN = false)
    (hc : cg.compute_ok = true) (hsx : cg.solve_x_ok = true)
    (hsy : cg.solve_y_ok = true) :
    ∃ q : PPlace ℝ,
      (QPHybridSolver_solve cg stored iteration p).2.2 = Except.ok q
      ∧ q.num_moveable_nodes = p.num_moveable_nodes
      ∧ q.nets = p.nets
      ∧ (∀ i, i < p.num_moveable_nodes →
          q.node_loc_x i = cg.sol_x i ∧ q.node_loc_y i = cg.sol_y i)
      ∧ (∀ i, p.num_moveable_nodes ≤ i →
          q.node_loc_x i = p.node_loc_x i ∧ q.node_loc_y i = p.node_loc_y i) := by
  refine ⟨⟨p.num_moveable_nodes,
    fun i => if i < p.num_moveable_nodes then cg.sol_x i else p.node_loc_x i,
    fun i => if i < p.num_moveable_nodes then cg.sol_y i else p.node_loc_y i,
    p.nets⟩, ?_, rfl, rfl, ?_, ?_⟩
  · unfold QPHybridSolver_solve
    simp [hbx, hby, hc, hsx, hsy]
  · intro i hi
    simp [hi]
  · intro i hi
    have hlt : ¬ i < p.num_moveable_nodes := by omega
    simp [hlt]

theorem solve_writeback_frame_witness :
    exOracleOk.b_x_hasNaN = false ∧ exOracleOk.b_y_hasNaN = false
    ∧ exOracleOk.compute_ok = true ∧ exOracleOk.solve_x_ok = true
    ∧ exOracleOk.solve_y_ok = true
    ∧ ∃ q : PPlace ℝ,
        (QPHybridSolver_solve exOracleOk exLinSysR 1 exPlacementR).2.2 = Except.ok q
        ∧ q.num_moveable_nodes = exPlacementR.num_moveable_nodes
        ∧ q.nets = exPlacementR.nets
        ∧ (∀ i, i < exPlacementR.num_moveable_nodes →
            q.node_loc_x i = exOracleOk.sol_x i ∧ q.node_loc_y i = exOracleOk.sol_y i)
        ∧ (∀ i, exPlacementR.num_moveable_nodes ≤ i →
            q.node_loc_x i = exPlacementR.node_loc_x i
            ∧ q.node_loc_y i = exPlacementR.node_loc_y i) :=
  ⟨rfl, rfl, rfl, rfl, rfl,
   solve_writeback_frame exOracleOk exLinSysR 1 exPlacementR rfl rfl rfl rfl rfl⟩

theorem solve_fst (cg : CGOracle) (stored : LinSys ℝ) (iteration : Nat)
    (p : PPlace ℝ) :
    (QPHybridSolver_solve cg stored iteration p).1
      = (if iteration = 0 then populate_hybrid_matrix p else stored) := rfl

theorem solve_diff (cg : CGOracle) (stored : LinSys ℝ) (iteration : Nat)
    (p : PPlace ℝ) :
    (QPHybridSolver_solve cg stored iteration p).2.1
      = (if iteration ≠ 0
         then populate_update_hybrid_matrix
           (if iteration = 0 then populate_hybrid_matrix p else stored) p iteration
         else (if iteration = 0 then populate_hybrid_matrix p else stored)) := rfl

/-- C6: QPHybridSolver::solve at iteration 0 rebuilds the stored system
from the netlist via populate_hybrid_matrix and hands exactly that system
to the conjugate-gradient solver; at any iteration above 0 it leaves the
stored system untouched and hands over a copy in which each moveable node
diagonal entry is raised by the pseudo-anchor weight 0.01 * exp(k / 5) and
each axis right-hand-side entry at a moveable node is raised by that weight
times the node current position on that axis. -/
theorem solve_system_evolution (cg : CGOracle) (stored : LinSys ℝ)
    (iteration : Nat) (p : PPlace ℝ) :
    (iteration = 0 →
      (QPHybridSolver_solve cg stored iteration p).1 = populate_hybrid_matrix p
      ∧ (QPHybridSolver_solve cg stored iteration p).2.1 = populate_hybrid_matrix p)
    ∧ (iteration ≠ 0 →
      (QPHybridSolver_solve cg stored iteration p).1 = stored
      ∧ (∀ i j, (QPHybridSolver_solve cg stored iteration p).2.1.A i j
          = stored.A i j
            + (if i = j ∧ i < p.num_moveable_nodes
               then coeff_pseudo_anchor iteration else 0))
      ∧ (∀ i, (QPHybridSolver_solve cg stored iteration p).2.1.b_x i
          = stored.b_x i
            + (if i < p.num_moveable_nodes
               then coeff_pseudo_anchor iteration * p.node_loc_x i else 0))
      ∧ (∀ i, (QPHybridSolver_solve cg stored iteration p).2.1.b_y i
          = stored.b_y i
            + (if i < p.num_moveable_nodes
               then coeff_pseudo_anchor iteration * p.node_loc_y i else 0))) := by
  constructor
  · intro h0
    subst h0
    exact ⟨rfl, rfl⟩
  · intro hk
    have h1 : (if iteration = 0 then populate_hybrid_matrix p else stored) = stored :=
      if_neg hk
    have hfst : (QPHybridSolver_solve cg stored iteration p).1 = stored := by
      rw [solve_fst, h1]
    have hdiff : (QPHybridSolver_solve cg stored iteration p).2.1
        = populate_update_hybrid_matrix stored p iteration := by
      rw [solve_diff, if_pos hk, h1]
    refine ⟨hfst, ?_, ?_, ?_⟩
    · intro i j
      rw [hdiff]
      exact anchor_fold_A p iteration stored p.num_moveable_nodes i j
    · intro i
      rw [hdiff]
      exact anchor_fold_bx p iteration stored p.num_moveable_nodes i
    · intro i
      rw [hdiff]
      exact anchor_fold_by p iteration stored p.num_moveable_nodes i

theorem solve_system_evolution_witness :
    (1 : Nat) ≠ 0
    ∧ ((QPHybridSolver_solve exOracleOk exLinSysR 1 exPlacementR).1 = exLinSysR
      ∧ (∀ i j, (QPHybridSolver_solve exOracleOk exLinSysR 1 exPlacementR).2.1.A i j
          = exLinSysR.A i j
            + (if i = j ∧ i < exPlacementR.num_moveable_nodes
               then coeff_pseudo_anchor 1 else 0))
      ∧ (∀ i, (QPHybridSolver_solve exOracleOk exLinSysR 1 exPlacementR).2.1.b_x i
          = exLinSysR.b_x i
            + (if i < exPlacementR.num_moveable_nodes
               then coeff_pseudo_anchor 1 * exPlacementR.node_loc_x i else 0))
      ∧ (∀ i, (QPHybridSolver_solve exOracleOk exLinSysR 1 exPlacementR).2.1.b_y i
          = exLinSysR.b_y i
            + (if i < exPlacementR.num_moveable_nodes
               then coeff_pseudo_anchor 1 * exPlacementR.node_loc_y i else 0))) :=
  ⟨by decide,
   (solve_system_evolution exOracleOk exLinSysR 1 exPlacementR).2 (by decide)⟩

/-- C9: QPHybridSolver::isSemiPosDef, despite its name, accepts exactly the
matrices whose eigenvalue list is entirely strictly positive; in particular
it rejects a positive-semidefinite spectrum that contains the eigenvalue
0. -/
theorem isSemiPosDef_spec (l : List ℚ) :
    (isSemiPosDef l = true ↔ ∀ e ∈ l, 0 < e)
    ∧ ((0 : ℚ) ∈ l → isSemiPosDef l = false) := by
  have hiff : ∀ m : List ℚ, (isSemiPosDef m = true ↔ ∀ e ∈ m, 0 < e) := by
    intro m
    induction m with
    | nil => simp [isSemiPosDef]
    | cons e rest ih =>
      unfold isSemiPosDef
      split_ifs with he
      · simp only [List.forall_mem_cons]
        constructor
        · intro hfalse
          cases hfalse
        · intro hall
          exact absurd hall.1 (not_lt.mpr he)
      · rw [ih]
        simp only [List.forall_mem_cons]
        have hpos : 0 < e := not_le.mp he
        tauto
  refine ⟨hiff l, ?_⟩
  intro h0
  cases hsd : isSemiPosDef l with
  | false => rfl
  | true => exact absurd (((hiff l).mp hsd) 0 h0) (lt_irrefl 0)

theorem isSemiPosDef_spec_witness :
    (0 : ℚ) ∈ [(0 : ℚ), 1, 2] ∧ isSemiPosDef [(0 : ℚ), 1, 2] = false :=
  ⟨by simp, (isSemiPosDef_spec [(0 : ℚ), 1, 2]).2 (by simp)⟩

/-- C10: in a run that is not timing driven, the Placer constructor leaves
the timing cost and its normalization factor at quiet NaN (modelled none),
and check_placement_costs_ skips the timing comparison entirely: its error
count is exactly the bounding-box mismatch indicator and does not depend on
any timing value, so such a run can never fail verification on the timing
term. -/
theorem non_timing_driven_skips_timing (bb t tol bbc tc1 tc2 : ℚ)
    (costs : PlacerCosts) :
    (placer_init_costs false bb t).timing_cost = none
    ∧ (placer_init_costs false bb t).timing_cost_norm = none
    ∧ check_placement_costs false tol costs bbc tc1
        = (if bb_mismatch tol costs bbc then 1 else 0)
    ∧ check_placement_costs false tol costs bbc tc1
        = check_placement_costs false tol costs bbc tc2 := by
  refine ⟨rfl, rfl, ?_, rfl⟩
  unfold check_placement_costs
  simp

/-- C2: Placer::check_place_ adds one error for each failed consistency
check: the verify_placement errors, a bounding-box CHECK-mode recomputation
differing from the tracked cost beyond the tracked cost times the relative
tolerance, the analogous from-scratch timing comparison only when timing
driven, and the NoC cost and cycle checks only when NoC is enabled; it
reports success exactly when the total count is zero and otherwise raises a
fatal error carrying that nonzero count. -/
theorem check_place_success_iff (v : Nat) (noc : Bool) (nce : Nat)
    (cyc td : Bool) (tol : ℚ) (costs : PlacerCosts) (bbc tcc : ℚ) :
    (check_place v noc nce cyc td tol costs bbc tcc = CheckResult.success ↔
      (v = 0 ∧ bb_mismatch tol costs bbc = false
        ∧ (td = true → timing_mismatch tol costs tcc = false)
        ∧ (noc = true → nce = 0 ∧ cyc = false)))
    ∧ (∀ n, check_place v noc nce cyc td tol costs bbc tcc = CheckResult.fatal n →
        0 < n ∧ n = v + check_placement_costs td tol costs bbc tcc
          + (if noc then nce + (if cyc then 1 else 0) else 0)) := by
  cases hbb : bb_mismatch tol costs bbc <;>
    cases htm : timing_mismatch tol costs tcc <;>
      cases td <;> cases noc <;> cases cyc <;>
        simp_all [check_place, check_placement_costs] <;>
          split_ifs <;> simp_all <;> omega

theorem check_place_success_iff_witness :
    0 < 2 ∧ (2 : Nat) = 2 + check_placement_costs false 1 ⟨1, 1, none, none⟩ 1 0
      + (if false then 0 + (if false then 1 else 0) else 0) :=
  (check_place_success_iff 2 false 0 false false 1 ⟨1, 1, none, none⟩ 1 0).2 2
    (by simp [check_place, check_placement_costs, bb_mismatch, timing_mismatch])

/-- C4: for every placement input the matrix assembled by
populate_hybrid_matrix is symmetric; each off-diagonal entry is the negated
total connection weight between the two unknowns (moveable nodes and star
hubs), so a pair connected by nets carries exactly the negated net weights;
every triplet index stays below dim = num_moveable + num_star, meaning a
fixed node never receives a matrix entry and rows or columns outside the
unknown range are identically zero; and each right-hand-side vector equals
the spec-side fixed-node contribution, each fixed pin folded in as weight
times fixed position at the connected unknown index. -/
theorem populate_hybrid_matrix_invariants (p : PPlace ℚ) (i j : Nat)
    (hij : i ≠ j) :
    (∀ a b, (populate_hybrid_matrix p).A a b = (populate_hybrid_matrix p).A b a)
    ∧ (populate_hybrid_matrix p).A i j
        = -(connWeight p.num_moveable_nodes p.nets 0 i j)
    ∧ (∀ t ∈ (assembleNets p.num_moveable_nodes p.node_loc_x p.node_loc_y p.nets 0).1.trips,
        t.1 < (populate_hybrid_matrix p).dim ∧ t.2.1 < (populate_hybrid_matrix p).dim)
    ∧ (∀ a b, (populate_hybrid_matrix p).dim ≤ a ∨ (populate_hybrid_matrix p).dim ≤ b →
        (populate_hybrid_matrix p).A a b = 0)
    ∧ (∀ a, (populate_hybrid_matrix p).b_x a
          = fixedRhs p.num_moveable_nodes p.node_loc_x p.nets 0 a
        ∧ (populate_hybrid_matrix p).b_y a
          = fixedRhs p.num_moveable_nodes p.node_loc_y p.nets 0 a) := by
  have hdim : (populate_hybrid_matrix p).dim
      = p.num_moveable_nodes + numStarNodes p.nets := rfl
  refine ⟨?_, ?_, ?_, ?_, ?_⟩
  · intro a b
    exact matEntry_assembleNets_symm p.num_moveable_nodes p.node_loc_x p.node_loc_y
      p.nets 0 a b
  · exact matEntry_assembleNets_ne p.num_moveable_nodes p.node_loc_x p.node_loc_y
      p.nets 0 i j hij
  · intro t ht
    have hb := trips_assembleNets_bound p.num_moveable_nodes p.node_loc_x p.node_loc_y
      p.nets 0 t ht
    rw [hdim]
    omega
  · intro a b hab
    rw [hdim] at hab
    show matEntry (assembleNets p.num_moveable_nodes p.node_loc_x p.node_loc_y
      p.nets 0).1.trips a b = 0
    apply matEntry_eq_zero_of_out _ (p.num_moveable_nodes + 0 + numStarNodes p.nets)
    · exact trips_assembleNets_bound p.num_moveable_nodes p.node_loc_x p.node_loc_y
        p.nets 0
    · omega
  · intro a
    exact ⟨rhsEntry_assembleNets_bxs p.num_moveable_nodes p.node_loc_x p.node_loc_y
        p.nets 0 a,
      rhsEntry_assembleNets_bys p.num_moveable_nodes p.node_loc_x p.node_loc_y
        p.nets 0 a⟩

theorem populate_hybrid_matrix_invariants_witness :
    (0 : Nat) ≠ 1
    ∧ ((∀ a b, (populate_hybrid_matrix exPlacement2).A a b
          = (populate_hybrid_matrix exPlacement2).A b a)
      ∧ (populate_hybrid_matrix exPlacement2).A 0 1
          = -(connWeight exPlacement2.num_moveable_nodes exPlacement2.nets 0 0 1)
      ∧ (∀ t ∈ (assembleNets exPlacement2.num_moveable_nodes exPlacement2.node_loc_x
            exPlacement2.node_loc_y exPlacement2.nets 0).1.trips,
          t.1 < (populate_hybrid_matrix exPlacement2).dim
          ∧ t.2.1 < (populate_hybrid_matrix exPlacement2).dim)
      ∧ (∀ a b, (populate_hybrid_matrix exPlacement2).dim ≤ a
            ∨ (populate_hybrid_matrix exPlacement2).dim ≤ b →
          (populate_hybrid_matrix exPlacement2).A a b = 0)
      ∧ (∀ a, (populate_hybrid_matrix exPlacement2).b_x a
            = fixedRhs exPlacement2.num_moveable_nodes exPlacement2.node_loc_x
                exPlacement2.nets 0 a
          ∧ (populate_hybrid_matrix exPlacement2).b_y a
            = fixedRhs exPlacement2.num_moveable_nodes exPlacement2.node_loc_y
                exPlacement2.nets 0 a)) :=
  ⟨by decide, populate_hybrid_matrix_invariants exPlacement2 0 1 (by decide)⟩

/-- C1 counterexample: for the concrete placement of a single non-ignored
3-pin net over three moveable nodes, the pairwise clique edge entry of the
assembled matrix is -(1/2), not the -(3/2) a weight of 3/(3-1) = 1.5 would
give: the clique branch of populate_hybrid_matrix uses 1.0/(num_pins - 1),
not num_pins/(num_pins - 1). -/
theorem clique_weight_counterexample :
    (populate_hybrid_matrix exPlacement3).A 0 1 = -(1/2)
    ∧ ¬ (populate_hybrid_matrix exPlacement3).A 0 1 = -(3/2)
    ∧ cliqueWeight 3 = (1/2 : ℚ)
    ∧ ¬ cliqueWeight 3 = ((3 : ℚ) / (3 - 1)) := by
  have h1 : (populate_hybrid_matrix exPlacement3).A 0 1 = -(1/2) := by
    simp [exPlacement3, populate_hybrid_matrix, numStarNodes, assembleNets, netContrib,
      concatContribs, Contrib.append, Contrib.empty, allPairs, cliquePairContrib,
      starPinContrib, is_moveable_node, matEntry, cliqueWeight, starWeight]
  refine ⟨h1, ?_, ?_, ?_⟩
  · rw [h1]
    norm_num
  · unfold cliqueWeight
    norm_num
  · unfold cliqueWeight
    norm_num

/-- C1 amended: the clique-edge weight used by populate_hybrid_matrix for a
net with pin count p at most 3 is 1/(p - 1), not p/(p - 1); in particular a
non-ignored net with 3 pins on three distinct moveable nodes yields exactly
the 3 pairwise clique edges, each carrying weight 1/(3-1) = 1/2: its
off-diagonal entries are -(1/2) at precisely those pairs and zero
elsewhere. -/
theorem clique_three_pin_net_edges (M : Nat) (x y : Nat → ℚ) (a b c : Nat)
    (ha : a < M) (hb : b < M) (hc : c < M)
    (hab : a ≠ b) (hac : a ≠ c) (hbc : b ≠ c) :
    cliqueWeight 3 = (1/2 : ℚ)
    ∧ (populate_hybrid_matrix (⟨M, x, y, [⟨false, [a, b, c]⟩]⟩ : PPlace ℚ)).A a b = -(1/2)
    ∧ (populate_hybrid_matrix (⟨M, x, y, [⟨false, [a, b, c]⟩]⟩ : PPlace ℚ)).A a c = -(1/2)
    ∧ (populate_hybrid_matrix (⟨M, x, y, [⟨false, [a, b, c]⟩]⟩ : PPlace ℚ)).A b c = -(1/2)
    ∧ (∀ i j, i ≠ j →
        (populate_hybrid_matrix (⟨M, x, y, [⟨false, [a, b, c]⟩]⟩ : PPlace ℚ)).A i j ≠ 0 →
        ((i = a ∧ j = b) ∨ (i = b ∧ j = a) ∨ (i = a ∧ j = c) ∨ (i = c ∧ j = a)
          ∨ (i = b ∧ j = c) ∨ (i = c ∧ j = b))) := by
  have hA : ∀ i j, i ≠ j →
      (populate_hybrid_matrix (⟨M, x, y, [⟨false, [a, b, c]⟩]⟩ : PPlace ℚ)).A i j
        = -(connWeight M [⟨false, [a, b, c]⟩] 0 i j) := by
    intro i j hij
    exact matEntry_assembleNets_ne M x y [⟨false, [a, b, c]⟩] 0 i j hij
  have hcw : cliqueWeight 3 = (1/2 : ℚ) := by
    unfold cliqueWeight
    norm_num
  have hconn : ∀ i j, connWeight M [⟨false, [a, b, c]⟩] 0 i j
      = cliqueWeight 3 * ((cliquePairMult M a b i j + (cliquePairMult M a c i j
          + (cliquePairMult M b c i j + 0)) : Nat) : ℚ) := by
    intro i j
    simp [connWeight, netPairMult, allPairs]
  refine ⟨hcw, ?_, ?_, ?_, ?_⟩
  · rw [hA a b hab, hconn]
    have h1 : cliquePairMult M a b a b = 1 := by
      unfold cliquePairMult
      simp [ha, hb]
    have h2 : cliquePairMult M a c a b = 0 := by
      unfold cliquePairMult
      simp
      omega
    have h3 : cliquePairMult M b c a b = 0 := by
      unfold cliquePairMult
      simp
      omega
    rw [h1, h2, h3, hcw]
    norm_num
  · rw [hA a c hac, hconn]
    have h1 : cliquePairMult M a b a c = 0 := by
      unfold cliquePairMult
      simp
      omega
    have h2 : cliquePairMult M a c a c = 1 := by
      unfold cliquePairMult
      simp [ha, hc]
    have h3 : cliquePairMult M b c a c = 0 := by
      unfold cliquePairMult
      simp
      omega
    rw [h1, h2, h3, hcw]
    norm_num
  · rw [hA b c hbc, hconn]
    have h1 : cliquePairMult M a b b c = 0 := by
      unfold cliquePairMult
      simp
      omega
    have h2 : cliquePairMult M a c b c = 0 := by
      unfold cliquePairMult
      simp
      omega
    have h3 : cliquePairMult M b c b c = 1 := by
      unfold cliquePairMult
      simp [hb, hc]
    rw [h1, h2, h3, hcw]
    norm_num
  · intro i j hij hne
    by_contra hmem
    push_neg at hmem
    apply hne
    rw [hA i j hij, hconn]
    have h1 : cliquePairMult M a b i j = 0 := by
      unfold cliquePairMult
      simp
      omega
    have h2 : cliquePairMult M a c i j = 0 := by
      unfold cliquePairMult
      simp
      omega
    have h3 : cliquePairMult M b c i j = 0 := by
      unfold cliquePairMult
      simp
      omega
    rw [h1, h2, h3]
    norm_num

theorem clique_three_pin_net_edges_witness :
    (0 : Nat) < 3 ∧ (1 : Nat) < 3 ∧ (2 : Nat) < 3
    ∧ (0 : Nat) ≠ 1 ∧ (0 : Nat) ≠ 2 ∧ (1 : Nat) ≠ 2
    ∧ (cliqueWeight 3 = (1/2 : ℚ)
      ∧ (populate_hybrid_matrix (⟨3, fun _ => 0, fun _ => 0,
          [⟨false, [0, 1, 2]⟩]⟩ : PPlace ℚ)).A 0 1 = -(1/2)
      ∧ (populate_hybrid_matrix (⟨3, fun _ => 0, fun _ => 0,
          [⟨false, [0, 1, 2]⟩]⟩ : PPlace ℚ)).A 0 2 = -(1/2)
      ∧ (populate_hybrid_matrix (⟨3, fun _ => 0, fun _ => 0,
          [⟨false, [0, 1, 2]⟩]⟩ : PPlace ℚ)).A 1 2 = -(1/2)
      ∧ (∀ i j, i ≠ j →
          (populate_hybrid_matrix (⟨3, fun _ => 0, fun _ => 0,
            [⟨false, [0, 1, 2]⟩]⟩ : PPlace ℚ)).A i j ≠ 0 →
          ((i = 0 ∧ j = 1) ∨ (i = 1 ∧ j = 0) ∨ (i = 0 ∧ j = 2) ∨ (i = 2 ∧ j = 0)
            ∨ (i = 1 ∧ j = 2) ∨ (i = 2 ∧ j = 1)))) :=
  ⟨by decide, by decide, by decide, by decide, by decide, by decide,
   clique_three_pin_net_edges 3 (fun _ => 0) (fun _ => 0) 0 1 2
     (by decide) (by decide) (by decide) (by decide) (by decide) (by decide)⟩

/-- C5: the assembly allocates exactly one synthetic star node per
non-ignored net with more than 3 pins: the final star offset equals the
count of such nets and the system dimension is num_moveable plus that
count; a net with at most 3 pins emits no star index, all its triplet
indices staying below num_moveable, while a big net touches only moveable
indices and its single hub; a clique pin pair with no moveable endpoint is
skipped entirely, and a pair of two distinct moveable nodes is an actual
pairwise edge of the clique model. -/
theorem star_node_allocation (M : Nat) (x y : Nat → ℚ) (nets : List Net)
    (net : Net) (hub f s : Nat) (w : ℚ) :
    ((assembleNets M x y nets 0).2 = numStarNodes nets)
    ∧ ((populate_hybrid_matrix (⟨M, x, y, nets⟩ : PPlace ℚ)).dim
        = M + numStarNodes nets)
    ∧ (net.pins.length ≤ 3 →
        ∀ t ∈ (netContrib M x y hub net).trips, t.1 < M ∧ t.2.1 < M)
    ∧ (3 < net.pins.length →
        ∀ t ∈ (netContrib M x y hub net).trips,
          (t.1 < M ∨ t.1 = hub) ∧ (t.2.1 < M ∨ t.2.1 = hub))
    ∧ (¬ f < M → ¬ s < M → cliquePairContrib M x y w f s = Contrib.empty)
    ∧ (f < M → s < M → f ≠ s →
        matEntry (cliquePairContrib M x y w f s).trips f s = -w) := by
  refine ⟨?_, rfl, ?_, ?_, ?_, ?_⟩
  · rw [assembleNets_final_offset]
    omega
  · intro hsmall
    exact trips_netContrib_small_bound M x y hub net (by omega)
  · intro hbig
    exact trips_netContrib_big_bound M x y hub net hbig
  · intro hf hs
    unfold cliquePairContrib is_moveable_node
    simp [hf, hs]
  · intro hf hs hfs
    rw [matEntry_cliquePairContrib_ne M x y w f s f s hfs]
    have hm : cliquePairMult M f s f s = 1 := by
      unfold cliquePairMult
      simp [hf, hs]
    rw [hm]
    norm_num

theorem star_node_allocation_witness :
    ¬ (1 : Nat) < 1 ∧ ¬ (2 : Nat) < 1
    ∧ cliquePairContrib 1 (fun _ => (0 : ℚ)) (fun _ => 0) (1/2) 1 2 = Contrib.empty :=
  ⟨by decide, by decide,
   (star_node_allocation 1 (fun _ => 0) (fun _ => 0) [] ⟨false, [0, 1]⟩ 0 1 2
     (1/2)).2.2.2.2.1 (by decide) (by decide)⟩

end VTR
